import Mathlib

/-!
Verification development for `ics_repair.py`, a tool that repairs calendar
export files containing multiple concatenated VCALENDAR blocks.

The Python source is shallowly embedded below.  Calendar objects produced by
the external `icalendar` parser are modelled following the data model of the
specification (a `CalendarDocument` is an ordered list of document-level
property key/value pairs plus an ordered list of event components); temporal
values (`date` vs. `datetime`, naive vs. timezone-aware) are a tagged variant,
with datetimes carried as wall-clock minutes plus an optional UTC-offset in
minutes, so that Python's `datetime`/`date` subtraction semantics (including
the `TypeError` raised when subtracting a naive from an aware datetime) are
represented exactly.  Event deduplication in the source compares
`(UID, effective_date.isoformat())` pairs; since `isoformat` is injective on
the temporal values modelled here, signatures are compared on the values
directly.
-/

namespace IcsRepair

/-- Temporal value attached to DTSTART / DTEND / RECURRENCE-ID: either a pure
calendar date (Python `datetime.date`, as an ordinal day number) or a datetime
(wall-clock minutes since the epoch together with an optional UTC offset in
minutes; `none` models a naive datetime). -/
inductive ICalTime where
  | date (d : Int)
  | datetime (m : Int) (tz : Option Int)
deriving DecidableEq

/-- Model of an `icalendar.Event` component: the properties read by
`ics_repair.py`.  `rrule` records presence of an `RRULE` property; `uid` is
`none` when the `UID` property is absent. -/
structure Event where
  summary : Option String
  location : Option String
  dtstart : Option ICalTime
  dtend : Option ICalTime
  uid : Option String
  rrule : Bool
  recurrenceId : Option ICalTime
deriving DecidableEq

instance : Inhabited Event := ⟨⟨none, none, none, none, none, false, none⟩⟩

/-- Model of a parsed `icalendar.Calendar`: document-level properties (key,
value) in order, plus the `VEVENT` components in order (as returned by
`cal.walk('VEVENT')`).  The same structure serves as the merge output. -/
structure Calendar where
  props : List (String × String)
  events : List Event
deriving DecidableEq

/-- Python `str.lower()` restricted to the character-wise case mapping. -/
def pyLower (s : String) : String := ⟨s.data.map Char.toLower⟩

/-- Python `str.upper()` restricted to the character-wise case mapping. -/
def pyUpper (s : String) : String := ⟨s.data.map Char.toUpper⟩

/-- Python `str.replace(' ', '_')`. -/
def pyReplaceSpace (s : String) : String :=
  ⟨s.data.map (fun c => if c = ' ' then '_' else c)⟩

/-- Python `str.strip()`: remove leading and trailing whitespace. -/
def pyStrip (s : String) : String :=
  ⟨((s.data.dropWhile Char.isWhitespace).reverse.dropWhile Char.isWhitespace).reverse⟩

/-- Zero-padded two-digit rendering of a field of `str(timedelta)`. -/
def pad2 (n : Nat) : String := if n < 10 then "0" ++ toString n else toString n

/-- Python `str(timedelta)` for a timedelta of `m` minutes: normalized to
`(days, seconds)` with `0 ≤ seconds < 86400`, rendered `H:MM:SS` with a
`D day(s), ` prefix when the day count is nonzero. -/
def tdRepr (m : Int) : String :=
  let secs : Int := m * 60
  let days : Int := secs.fdiv 86400
  let rem : Nat := (secs.fmod 86400).toNat
  let h : Nat := rem / 3600
  let mi : Nat := (rem % 3600) / 60
  let ss : Nat := rem % 60
  let hms : String := toString h ++ ":" ++ pad2 mi ++ ":" ++ pad2 ss
  if days = 0 then hms
  else
    toString days ++ " day" ++ (if days = 1 ∨ days = -1 then "" else "s") ++ ", " ++ hms

/-- Textual form of the duration slot of a series key, as interpolated by the
f-string in the source: `str(None)` for the missing-bound sentinel, otherwise
`str(timedelta)`. -/
def durText : Option Int → String
  | none => "None"
  | some m => tdRepr m

/-- Promotion step of `series_key` (lines 76-79 of the source): when exactly
one bound is a calendar date it is replaced by `datetime.combine(bound,
datetime.min.time(), tzinfo=other.tzinfo)`, i.e. midnight of that day
inheriting the other bound's timezone. -/
def promoteBounds : ICalTime → ICalTime → ICalTime × ICalTime
  | ICalTime.date d, ICalTime.datetime m tz =>
      (ICalTime.datetime (d * 1440) tz, ICalTime.datetime m tz)
  | ICalTime.datetime m tz, ICalTime.date d =>
      (ICalTime.datetime m tz, ICalTime.datetime (d * 1440) tz)
  | a, b => (a, b)

/-- Python subtraction `a - b` on temporal values, in minutes.  `none` models
the `TypeError` raised when mixing a naive and an aware datetime (or a date
and a datetime). -/
def tsub : ICalTime → ICalTime → Option Int
  | ICalTime.date d2, ICalTime.date d1 => some ((d2 - d1) * 1440)
  | ICalTime.datetime m2 none, ICalTime.datetime m1 none => some (m2 - m1)
  | ICalTime.datetime m2 (some o2), ICalTime.datetime m1 (some o1) =>
      some ((m2 - o2) - (m1 - o1))
  | _, _ => none

/-- Duration `dtend - dtstart` after promotion, `none` when the subtraction
raises. -/
def durationOf (dtstart dtend : ICalTime) : Option Int :=
  let p := promoteBounds dtstart dtend
  tsub p.2 p.1

/-- Series key of the duration slot only: the `duration` variable of
`series_key` at line 86 (`none` = Python `None`, the missing-bound sentinel;
a raised subtraction falls back to `timedelta(0)`, i.e. `some 0`). -/
def durationSlot (ev : Event) : Option Int :=
  match ev.dtstart, ev.dtend with
  | some ds, some de =>
      match durationOf ds de with
      | some d => some d
      | none => some 0
  | _, _ => none

/-- Embedding of `series_key` (source lines 60-86): the grouping key
`(summary.strip(), location.strip(), duration)`. -/
def series_key (ev : Event) : String × String × Option Int :=
  (pyStrip (ev.summary.getD ""), pyStrip (ev.location.getD ""), durationSlot ev)

/-- The grouping key type of `series_key`. -/
abbrev SeriesKey := String × String × Option Int

/-- One step of building `groups = defaultdict(list)` in insertion order
(source lines 99, 106-107): append `e` to the entry with key `k`, or append a
fresh entry `(k, [e])` at the end when no entry with key `k` exists yet. -/
def insertGrouped (gs : List (SeriesKey × List Event)) (k : SeriesKey) (e : Event) :
    List (SeriesKey × List Event) :=
  match gs with
  | [] => [(k, [e])]
  | (k', l) :: rest =>
      if k' = k then (k', l ++ [e]) :: rest else (k', l) :: insertGrouped rest k e

/-- Partition of the flat event list into series groups, keyed by
`series_key`, in insertion order of first appearance (Python dicts preserve
insertion order). -/
def groupBySeriesKey (evs : List Event) : List (SeriesKey × List Event) :=
  evs.foldl (fun gs e => insertGrouped gs (series_key e) e) []

/-- Python truthiness of the `UID` property: `master.get('UID')` is falsy when
the property is absent or its text is empty (`if not uid:`). -/
def truthyUid : Option String → Option String
  | some u => if u = "" then none else some u
  | none => none

/-- The synthesized identifier of source lines 122-124:
`f"{summary}-{location}-{duration}".replace(' ', '_').lower()` followed by the
fixed synthetic-origin suffix `@fixed.by.script`. -/
def synthUid (k : SeriesKey) : String :=
  pyLower (pyReplaceSpace (k.1 ++ "-" ++ k.2.1 ++ "-" ++ durText k.2.2)) ++ "@fixed.by.script"

/-- Master selection of source lines 111-118: the first event of the group
carrying `RRULE`, else the first event of the group. -/
def pickMaster (evs : List Event) : Event :=
  (evs.find? (fun e => e.rrule)).getD evs.headI

/-- The canonical UID adopted for a group (source lines 120-125): the master's
UID when truthy, else the synthesized identifier for the group's key. -/
def canonicalUid (k : SeriesKey) (evs : List Event) : String :=
  match truthyUid (pickMaster evs).uid with
  | some u => u
  | none => synthUid k

/-- The UID assignment `ev['UID'] = uid` of source line 128. -/
def setUid (e : Event) (u : String) : Event := { e with uid := some u }

/-- Propagation of the canonical UID over one group (source lines 127-129). -/
def assignGroupUid (k : SeriesKey) (evs : List Event) : List Event :=
  evs.map (fun e => setUid e (canonicalUid k evs))

/-- The `final_events` list of source lines 109-129: groups in insertion
order, each event overwritten with its group's canonical UID. -/
def finalEvents (gs : List (SeriesKey × List Event)) : List Event :=
  gs.flatMap (fun g => assignGroupUid g.1 g.2)

/-- Deduplication signature type: `(UID, effective-date)`. -/
abbrev Sig := Option String × ICalTime

/-- The `event_signature` of source lines 133-143: `none` when the event lacks
`DTSTART` (such events are dropped), otherwise the pair of the event's UID and
its `RECURRENCE-ID` timestamp when present, else its `DTSTART` timestamp. -/
def eventSignature (e : Event) : Option Sig :=
  match e.dtstart with
  | none => none
  | some ds =>
      some (e.uid, match e.recurrenceId with
                   | some r => r
                   | none => ds)

/-- One iteration of the deduplication loop (source lines 132-147), carried
over the pair (events added so far, signatures seen so far). -/
def dedupStep (acc : List Event × List Sig) (e : Event) : List Event × List Sig :=
  match eventSignature e with
  | none => acc
  | some s => if s ∈ acc.2 then acc else (acc.1 ++ [e], s :: acc.2)

/-- The deduplicated component list appended to the merged calendar. -/
def dedupEvents (evs : List Event) : List Event :=
  (evs.foldl dedupStep ([], [])).1

/-- Component-type names excluded from the header copy (source line 96). -/
def componentNames : List String :=
  ["VEVENT", "VTODO", "VJOURNAL", "VFREEBUSY", "VTIMEZONE", "VALARM"]

/-- Header adoption of source lines 94-97: the first document's properties,
with keys matching a component-type name excluded. -/
def headerProps (c : Calendar) : List (String × String) :=
  c.props.filter (fun kv => !componentNames.contains (pyUpper kv.1))

/-- Flattening of source lines 100-104: every event of every document, in
source order. -/
def allEvents (cals : List Calendar) : List Event :=
  cals.flatMap (fun c => c.events)

/-- Embedding of `process_calendars` (source lines 88-149): `none` for an
empty input list, otherwise the merged document. -/
def process_calendars (cals : List Calendar) : Option Calendar :=
  match cals with
  | [] => none
  | first :: _ =>
      some { props := headerProps first
             events := dedupEvents (finalEvents (groupBySeriesKey (allEvents cals))) }

/-- Observable persistence state of one repaired file: the content at the
original path and the content at the backup path (`none` when no backup file
exists). -/
structure PersistState where
  origContent : String
  backupContent : Option String
deriving DecidableEq

/-- Observable persistence actions, in the order they are performed. -/
inductive PersistEvent where
  | backupCreated (path : String)
  | backupFailed
  | fileOverwritten
  | writeFailed
deriving DecidableEq

/-- The backup path of source line 168:
`file_path.with_suffix(file_path.suffix + '.backup')`, i.e. the sibling path
obtained by appending the fixed suffix `.backup`. -/
def backupPath (p : String) : String := p ++ ".backup"

/-- Embedding of the persistence tail of `process_file` (source lines
167-180): first `shutil.copy2` of the original to the backup path (on failure
log an error and return, touching nothing), then overwrite the original path
with the serialized document (on failure log an error; the backup remains).
`copyOk` / `writeOk` are the oracles for the two fallible I/O calls. -/
def persistStage (path : String) (serialized : String) (copyOk writeOk : Bool)
    (st : PersistState) : PersistState × List PersistEvent :=
  if copyOk then
    let st1 : PersistState := { st with backupContent := some st.origContent }
    if writeOk then
      ({ st1 with origContent := serialized },
       [PersistEvent.backupCreated (backupPath path), PersistEvent.fileOverwritten])
    else
      (st1, [PersistEvent.backupCreated (backupPath path), PersistEvent.writeFailed])
  else
    (st, [PersistEvent.backupFailed])

/-- Embedding of `process_file` (source lines 151-180) from the point where
the chunks have been parsed: when merging produces no calendar the file is
left untouched, otherwise the persistence stage runs. -/
def process_file (path : String) (serialize : Calendar → String)
    (cals : List Calendar) (copyOk writeOk : Bool) (st : PersistState) :
    PersistState × List PersistEvent :=
  match process_calendars cals with
  | none => (st, [])
  | some m => persistStage path (serialize m) copyOk writeOk st

/-- The whole-byte repair pipeline with the external parse/serialize
capability abstracted (spec §1 and §6 treat the calendar text parser and
serializer as external collaborators): parse the file content into calendar
blocks, merge, and serialize. -/
def repairBytes {β : Type} (parseFile : β → List Calendar)
    (serialize : Calendar → β) (b : β) : Option β :=
  (process_calendars (parseFile b)).map serialize

/-! ### Concrete example data used by witnesses and counterexamples -/

/-- An event with both bounds present, one hour apart, naive datetimes. -/
def exBoth : Event :=
  { summary := some "Team Sync"
    location := none
    dtstart := some (ICalTime.datetime 0 none)
    dtend := some (ICalTime.datetime 60 none)
    uid := none
    rrule := false
    recurrenceId := none }

/-- An event lacking `DTEND`. -/
def exNoEnd : Event :=
  { exBoth with dtend := none }

/-- An event whose bounds mix an aware and a naive datetime, so that the
promoted subtraction raises in Python. -/
def exMixed : Event :=
  { exBoth with dtstart := some (ICalTime.datetime 0 (some 120))
                dtend := some (ICalTime.datetime 60 none) }

/-- An event with a genuine zero duration and the same summary/location as
`exMixed`. -/
def exZero : Event :=
  { exBoth with dtend := some (ICalTime.datetime 0 none) }

/-! ### C6: duration computation of `series_key` -/

/-- C6: for an event with both `DTSTART` and `DTEND`, the duration slot of its
series key is `DTEND − DTSTART` computed after normalizing mixed
date/datetime bounds (a calendar-date bound is promoted to a datetime at
midnight inheriting the other bound's timezone before subtracting); when
either bound is missing the slot is the sentinel `none`, which differs from a
zero duration. -/
theorem C6_duration_normalization :
    (∀ (ev : Event) (ds de : ICalTime), ev.dtstart = some ds → ev.dtend = some de →
        ∀ d : Int, durationOf ds de = some d → (series_key ev).2.2 = some d)
    ∧ (∀ (d m : Int) (tz : Option Int),
        durationOf (ICalTime.date d) (ICalTime.datetime m tz)
          = tsub (ICalTime.datetime m tz) (ICalTime.datetime (d * 1440) tz)
        ∧ durationOf (ICalTime.datetime m tz) (ICalTime.date d)
          = tsub (ICalTime.datetime (d * 1440) tz) (ICalTime.datetime m tz))
    ∧ (∀ ev : Event, ev.dtstart = none ∨ ev.dtend = none → (series_key ev).2.2 = none)
    ∧ ((none : Option Int) ≠ some 0) := by
  refine ⟨?_, ?_, ?_, by simp⟩
  · intro ev ds de h1 h2 d hd
    simp [series_key, durationSlot, h1, h2, hd]
  · intro d m tz
    exact ⟨rfl, rfl⟩
  · intro ev h
    rcases h with h | h
    · simp [series_key, durationSlot, h]
    · cases hs : ev.dtstart <;> simp [series_key, durationSlot, h, hs]

/-- Witness for C6 at concrete events. -/
theorem C6_duration_normalization_witness :
    (series_key exBoth).2.2 = some 60 ∧ (series_key exNoEnd).2.2 = none :=
  ⟨C6_duration_normalization.1 exBoth _ _ rfl rfl 60 rfl,
   C6_duration_normalization.2.2.1 exNoEnd (Or.inr rfl)⟩

/-! ### C10: silent fallback to a zero duration when the subtraction raises -/

/-- C10: when both bounds are present but the promoted subtraction raises (for
example one bound aware and the other naive), `series_key` falls back to
`timedelta(0)`, so the event's key duration slot equals `some 0`, the same
value as for genuine zero-duration events; with matching summary and location
such events share their whole series key. -/
theorem C10_zero_duration_fallback :
    (∀ m1 m2 o : Int,
        durationOf (ICalTime.datetime m1 (some o)) (ICalTime.datetime m2 none) = none
      ∧ durationOf (ICalTime.datetime m1 none) (ICalTime.datetime m2 (some o)) = none)
    ∧ (∀ (ev : Event) (ds de : ICalTime), ev.dtstart = some ds → ev.dtend = some de →
        durationOf ds de = none → (series_key ev).2.2 = some 0)
    ∧ (∀ (ev ev' : Event) (ds de : ICalTime),
        ev.dtstart = some ds → ev.dtend = some de → durationOf ds de = none →
        (series_key ev').1 = (series_key ev).1 →
        (series_key ev').2.1 = (series_key ev).2.1 →
        (series_key ev').2.2 = some 0 →
        series_key ev' = series_key ev) := by
  refine ⟨fun m1 m2 o => ⟨rfl, rfl⟩, ?_, ?_⟩
  · intro ev ds de h1 h2 hd
    simp [series_key, durationSlot, h1, h2, hd]
  · intro ev ev' ds de h1 h2 hd hsum hloc hz
    have hev : (series_key ev).2.2 = some 0 := by
      simp [series_key, durationSlot, h1, h2, hd]
    have h22 : (series_key ev').2 = (series_key ev).2 :=
      Prod.ext hloc (hz.trans hev.symm)
    exact Prod.ext hsum h22

/-- Witness for C10: `exMixed` has mixed awareness, falls back to a zero
duration, and shares its series key with the genuine zero-duration `exZero`. -/
theorem C10_zero_duration_fallback_witness :
    (series_key exMixed).2.2 = some 0 ∧ series_key exZero = series_key exMixed :=
  ⟨C10_zero_duration_fallback.2.1 exMixed _ _ rfl rfl rfl,
   C10_zero_duration_fallback.2.2 exMixed exZero _ _ rfl rfl rfl rfl rfl rfl⟩

/-! ### C9: backup-before-overwrite discipline of `process_file` -/

/-- A calendar with document-level properties only, for header witnesses. -/
def exCalHdr : Calendar :=
  { props := [("PRODID", "y"), ("VEVENT", "z")], events := [] }

/-- The merge output for `[exCalHdr]`. -/
def exCalHdrOut : Calendar :=
  { props := [("PRODID", "y")], events := [] }

/-- C9: for a file that reaches the persistence stage, a failing backup copy
aborts processing with an error report and leaves the original untouched with
no overwrite attempted; when the copy succeeds, the backup (a copy of the
original content at the sibling path with the fixed `.backup` suffix) exists
before any overwrite, and an overwrite only ever happens after a successful
backup. -/
theorem C9_backup_before_overwrite :
    ∀ (path : String) (serialize : Calendar → String) (cals : List Calendar)
      (m : Calendar) (copyOk writeOk : Bool) (st : PersistState),
      process_calendars cals = some m →
      (copyOk = false →
        process_file path serialize cals copyOk writeOk st = (st, [PersistEvent.backupFailed]))
      ∧ (copyOk = true →
          (process_file path serialize cals copyOk writeOk st).1.backupContent
              = some st.origContent
          ∧ (process_file path serialize cals copyOk writeOk st).2.head?
              = some (PersistEvent.backupCreated (backupPath path)))
      ∧ (PersistEvent.fileOverwritten ∈ (process_file path serialize cals copyOk writeOk st).2 →
          copyOk = true
          ∧ (process_file path serialize cals copyOk writeOk st).1.backupContent
              = some st.origContent) := by
  intro path serialize cals m copyOk writeOk st h
  simp only [process_file, h]
  cases copyOk <;> cases writeOk <;> simp [persistStage]

/-- Witness for C9: with a failing copy oracle the file state is returned
unchanged and only a backup-failure report is produced. -/
theorem C9_backup_before_overwrite_witness :
    process_file "a.ics" (fun _ => "") [exCalHdr] false true ⟨"orig", none⟩
      = (⟨"orig", none⟩, [PersistEvent.backupFailed]) :=
  (C9_backup_before_overwrite "a.ics" (fun _ => "") [exCalHdr] exCalHdrOut false true
      ⟨"orig", none⟩ (by decide)).1 rfl

/-! ### C5: header adoption from the first parsed document only -/

/-- C5: the output document's properties are exactly the first parsed
document's properties with every key matching a component-type name removed;
every output property is a property of the first document (none originate
from later documents, and in the modelled `CalendarDocument` the `props` list
holds document-level properties only, so none originate from subcomponents). -/
theorem C5_header_adoption :
    ∀ (first : Calendar) (rest : List Calendar) (m : Calendar),
      process_calendars (first :: rest) = some m →
      m.props = first.props.filter (fun kv => !componentNames.contains (pyUpper kv.1))
      ∧ ∀ p : String × String,
          p ∈ m.props ↔ p ∈ first.props ∧ componentNames.contains (pyUpper p.1) = false := by
  intro first rest m h
  simp only [process_calendars, Option.some.injEq] at h
  subst h
  refine ⟨rfl, ?_⟩
  intro p
  simp [headerProps, List.mem_filter]

/-- Witness for C5 at a concrete two-property document: the `VEVENT` key is
excluded and the `PRODID` key is kept. -/
theorem C5_header_adoption_witness :
    exCalHdrOut.props
      = exCalHdr.props.filter (fun kv => !componentNames.contains (pyUpper kv.1)) :=
  (C5_header_adoption exCalHdr [] exCalHdrOut (by decide)).1

/-! ### Invariants of the deduplication fold -/

/-- Invariant carried by the deduplication loop: kept events have signatures,
those signatures are recorded in the seen set, kept signatures are pairwise
distinct, and every kept event comes from the initial accumulator or the
processed list. -/
theorem dedup_foldl_spec (evs : List Event) :
    ∀ (out : List Event) (seen : List Sig),
      (∀ e ∈ out, ∀ s, eventSignature e = some s → s ∈ seen) →
      out.Pairwise (fun a b => eventSignature a ≠ eventSignature b) →
      (∀ e ∈ out, (eventSignature e).isSome) →
      (∀ e ∈ (evs.foldl dedupStep (out, seen)).1, ∀ s, eventSignature e = some s →
          s ∈ (evs.foldl dedupStep (out, seen)).2)
      ∧ (evs.foldl dedupStep (out, seen)).1.Pairwise
          (fun a b => eventSignature a ≠ eventSignature b)
      ∧ (∀ e ∈ (evs.foldl dedupStep (out, seen)).1, (eventSignature e).isSome)
      ∧ (∀ e ∈ (evs.foldl dedupStep (out, seen)).1, e ∈ out ∨ e ∈ evs) := by
  induction evs with
  | nil =>
      intro out seen h1 h2 h3
      exact ⟨h1, h2, h3, fun e he => Or.inl he⟩
  | cons e rest ih =>
      intro out seen h1 h2 h3
      rw [List.foldl_cons]
      have step :
          dedupStep (out, seen) e = (out, seen)
          ∨ ∃ s, eventSignature e = some s ∧ s ∉ seen
              ∧ dedupStep (out, seen) e = (out ++ [e], s :: seen) := by
        cases hsig : eventSignature e with
        | none =>
            left
            simp [dedupStep, hsig]
        | some s =>
            by_cases hs : s ∈ seen
            · left
              simp [dedupStep, hsig, hs]
            · right
              exact ⟨s, rfl, hs, by simp [dedupStep, hsig, hs]⟩
      rcases step with hstep | ⟨s, hsig, hs, hstep⟩
      · rw [hstep]
        rcases ih out seen h1 h2 h3 with ⟨g1, g2, g3, g4⟩
        refine ⟨g1, g2, g3, fun e' he' => ?_⟩
        rcases g4 e' he' with h | h
        · exact Or.inl h
        · exact Or.inr (List.mem_cons_of_mem _ h)
      · rw [hstep]
        have h1' : ∀ e' ∈ out ++ [e], ∀ s', eventSignature e' = some s' → s' ∈ s :: seen := by
          intro e' he' s' hsig'
          rcases List.mem_append.mp he' with h | h
          · exact List.mem_cons_of_mem _ (h1 e' h s' hsig')
          · have : e' = e := List.mem_singleton.mp h
            subst this
            rw [hsig] at hsig'
            injection hsig' with h'
            rw [← h']
            exact List.mem_cons_self _ _
        have h2' : (out ++ [e]).Pairwise (fun a b => eventSignature a ≠ eventSignature b) := by
          rw [List.pairwise_append]
          refine ⟨h2, List.pairwise_singleton _ _, ?_⟩
          intro a ha b hb
          have hb' : b = e := List.mem_singleton.mp hb
          subst hb'
          intro hab
          rcases Option.isSome_iff_exists.mp (h3 a ha) with ⟨sa, hsa⟩
          have : sa ∈ seen := h1 a ha sa hsa
          rw [hsa, hsig] at hab
          injection hab with h'
          rw [h'] at this
          exact hs this
        have h3' : ∀ e' ∈ out ++ [e], (eventSignature e').isSome := by
          intro e' he'
          rcases List.mem_append.mp he' with h | h
          · exact h3 e' h
          · have : e' = e := List.mem_singleton.mp h
            subst this
            rw [hsig]
            rfl
        rcases ih (out ++ [e]) (s :: seen) h1' h2' h3' with ⟨g1, g2, g3, g4⟩
        refine ⟨g1, g2, g3, fun e' he' => ?_⟩
        rcases g4 e' he' with h | h
        · rcases List.mem_append.mp h with h | h
          · exact Or.inl h
          · exact Or.inr (List.mem_cons.mpr (Or.inl (List.mem_singleton.mp h)))
        · exact Or.inr (List.mem_cons_of_mem _ h)

/-- Every deduplicated event comes from the input list. -/
theorem dedupEvents_subset {e : Event} {l : List Event} (h : e ∈ dedupEvents l) : e ∈ l := by
  have := (dedup_foldl_spec l [] [] (by simp) List.Pairwise.nil (by simp)).2.2.2 e h
  simpa using this

/-- Deduplicated events have pairwise distinct signatures and all carry one. -/
theorem dedupEvents_distinct (l : List Event) :
    (∀ e ∈ dedupEvents l, (eventSignature e).isSome)
    ∧ (dedupEvents l).Pairwise (fun a b => eventSignature a ≠ eventSignature b) := by
  have h := dedup_foldl_spec l [] [] (by simp) List.Pairwise.nil (by simp)
  exact ⟨h.2.2.1, h.2.1⟩

/-! ### C1: no two output events share an `EventSignature` -/

/-- C1: in the merged output of any (necessarily non-empty) input list of
parsed calendars, every event has a signature (its `UID` paired with its
`RECURRENCE-ID` timestamp if present, else its `DTSTART` timestamp), and the
signatures of distinct output events are pairwise different. -/
theorem C1_no_duplicate_signatures :
    ∀ (cals : List Calendar) (m : Calendar), process_calendars cals = some m →
      (∀ e ∈ m.events, (eventSignature e).isSome)
      ∧ m.events.Pairwise (fun a b => eventSignature a ≠ eventSignature b) := by
  intro cals m h
  cases cals with
  | nil => simp [process_calendars] at h
  | cons first rest =>
      simp only [process_calendars, Option.some.injEq] at h
      subst h
      exact ⟨(dedupEvents_distinct _).1, (dedupEvents_distinct _).2⟩

/-- A calendar containing the same event twice. -/
def exCalDup : Calendar := { props := [], events := [exBoth, exBoth] }

/-- The event of `exCalDup` after UID assignment. -/
def exBothU : Event := { exBoth with uid := some "team_sync--1:00:00@fixed.by.script" }

/-- The merge output for `[exCalDup]`. -/
def exCalDupOut : Calendar := { props := [], events := [exBothU] }

/-- Witness for C1 at a concrete duplicate-bearing calendar. -/
theorem C1_no_duplicate_signatures_witness :
    (∀ e ∈ exCalDupOut.events, (eventSignature e).isSome)
    ∧ exCalDupOut.events.Pairwise (fun a b => eventSignature a ≠ eventSignature b) :=
  C1_no_duplicate_signatures [exCalDup] exCalDupOut (by decide)

/-! ### Invariants of the series grouping -/

/-- Well-formedness of a group list: every member carries its group's key, the
keys are pairwise distinct, and every group is non-empty. -/
def GroupsWF (gs : List (SeriesKey × List Event)) : Prop :=
  (∀ g ∈ gs, ∀ e ∈ g.2, series_key e = g.1)
  ∧ (gs.map Prod.fst).Nodup
  ∧ ∀ g ∈ gs, g.2 ≠ []

/-- Unfolding equation: inserting into the empty group list. -/
theorem insertGrouped_nil (k : SeriesKey) (e : Event) :
    insertGrouped [] k e = [(k, [e])] := rfl

/-- Unfolding equation: inserting at a matching head group. -/
theorem insertGrouped_cons_self (k : SeriesKey) (l : List Event)
    (rest : List (SeriesKey × List Event)) (e : Event) :
    insertGrouped ((k, l) :: rest) k e = (k, l ++ [e]) :: rest := by
  simp [insertGrouped]

/-- Unfolding equation: inserting past a non-matching head group. -/
theorem insertGrouped_cons_ne {k' k : SeriesKey} (h : k' ≠ k) (l : List Event)
    (rest : List (SeriesKey × List Event)) (e : Event) :
    insertGrouped ((k', l) :: rest) k e = (k', l) :: insertGrouped rest k e := by
  simp [insertGrouped, h]

/-- Keys after inserting an event: unchanged when the key is already present,
otherwise the new key is appended. -/
theorem insertGrouped_keys (gs : List (SeriesKey × List Event)) (k : SeriesKey) (e : Event) :
    (insertGrouped gs k e).map Prod.fst
      = if k ∈ gs.map Prod.fst then gs.map Prod.fst else gs.map Prod.fst ++ [k] := by
  induction gs with
  | nil => simp [insertGrouped_nil]
  | cons g rest ih =>
      obtain ⟨k', l⟩ := g
      by_cases hk : k' = k
      · subst hk
        simp [insertGrouped_cons_self]
      · have hne : k ≠ k' := fun h => hk h.symm
        rw [insertGrouped_cons_ne hk, List.map_cons, List.map_cons, ih]
        by_cases hmem : k ∈ rest.map Prod.fst <;>
          simp [hmem, hne, List.mem_cons]

/-- Inserting an event rearranges the flattened groups by appending it. -/
theorem insertGrouped_flatten (gs : List (SeriesKey × List Event)) (k : SeriesKey) (e : Event) :
    List.Perm ((insertGrouped gs k e).flatMap (fun g => g.2))
      (gs.flatMap (fun g => g.2) ++ [e]) := by
  induction gs with
  | nil => simp [insertGrouped_nil]
  | cons g rest ih =>
      obtain ⟨k', l⟩ := g
      by_cases hk : k' = k
      · subst hk
        rw [insertGrouped_cons_self, List.flatMap_cons, List.flatMap_cons,
          List.append_assoc, List.append_assoc]
        exact List.Perm.append_left l List.perm_append_comm
      · rw [insertGrouped_cons_ne hk, List.flatMap_cons, List.flatMap_cons,
          List.append_assoc]
        exact List.Perm.append_left l ih

/-- Insertion preserves group-list well-formedness. -/
theorem insertGrouped_wf (gs : List (SeriesKey × List Event)) (k : SeriesKey) (e : Event)
    (hwf : GroupsWF gs) (hk : series_key e = k) : GroupsWF (insertGrouped gs k e) := by
  induction gs with
  | nil =>
      refine ⟨?_, by simp [insertGrouped_nil], ?_⟩
      · intro g hg e' he'
        rw [insertGrouped_nil] at hg
        have hgeq := List.mem_singleton.mp hg
        subst hgeq
        have heeq : e' = e := List.mem_singleton.mp he'
        subst heeq
        exact hk
      · intro g hg
        rw [insertGrouped_nil] at hg
        have hgeq := List.mem_singleton.mp hg
        subst hgeq
        simp
  | cons g0 rest ih =>
      obtain ⟨k', l⟩ := g0
      obtain ⟨hmem, hnd, hne⟩ := hwf
      by_cases hkk : k' = k
      · subst hkk
        refine ⟨?_, ?_, ?_⟩
        · intro g hg e' he'
          rw [insertGrouped_cons_self, List.mem_cons] at hg
          rcases hg with hg | hg
          · subst hg
            rcases List.mem_append.mp he' with h | h
            · exact hmem (k', l) (List.mem_cons_self _ _) e' h
            · rw [List.mem_singleton.mp h]
              exact hk
          · exact hmem g (List.mem_cons_of_mem _ hg) e' he'
        · rw [insertGrouped_cons_self, List.map_cons]
          simpa using hnd
        · intro g hg
          rw [insertGrouped_cons_self, List.mem_cons] at hg
          rcases hg with hg | hg
          · subst hg
            simp
          · exact hne g (List.mem_cons_of_mem _ hg)
      · have hwfrest : GroupsWF rest :=
          ⟨fun g hg => hmem g (List.mem_cons_of_mem _ hg),
           (List.nodup_cons.mp hnd).2,
           fun g hg => hne g (List.mem_cons_of_mem _ hg)⟩
        obtain ⟨ih1, ih2, ih3⟩ := ih hwfrest
        refine ⟨?_, ?_, ?_⟩
        · intro g hg e' he'
          rw [insertGrouped_cons_ne hkk, List.mem_cons] at hg
          rcases hg with hg | hg
          · subst hg
            exact hmem (k', l) (List.mem_cons_self _ _) e' he'
          · exact ih1 g hg e' he'
        · rw [insertGrouped_cons_ne hkk, List.map_cons, List.nodup_cons]
          constructor
          · rw [insertGrouped_keys]
            have hk' : k' ∉ rest.map Prod.fst := (List.nodup_cons.mp hnd).1
            by_cases hmemk : k ∈ rest.map Prod.fst
            · simpa [hmemk] using hk'
            · simp [hmemk, hk', hkk]
          · exact ih2
        · intro g hg
          rw [insertGrouped_cons_ne hkk, List.mem_cons] at hg
          rcases hg with hg | hg
          · subst hg
            exact hne (k', l) (List.mem_cons_self _ _)
          · exact ih3 g hg

/-- The grouping fold preserves well-formedness. -/
theorem groupBy_foldl_wf (evs : List Event) :
    ∀ gs : List (SeriesKey × List Event), GroupsWF gs →
      GroupsWF (evs.foldl (fun gs e => insertGrouped gs (series_key e) e) gs) := by
  induction evs with
  | nil => intro gs h; exact h
  | cons e rest ih =>
      intro gs h
      rw [List.foldl_cons]
      exact ih _ (insertGrouped_wf gs (series_key e) e h rfl)

/-- The series grouping is well-formed. -/
theorem groupBy_wf (evs : List Event) : GroupsWF (groupBySeriesKey evs) :=
  groupBy_foldl_wf evs [] ⟨by simp, by simp, by simp⟩

/-- The flattened series groups are a permutation of the event list. -/
theorem groupBy_flatten (evs : List Event) :
    List.Perm ((groupBySeriesKey evs).flatMap (fun g => g.2)) evs := by
  have main : ∀ (l : List Event) (gs : List (SeriesKey × List Event)),
      List.Perm
        ((l.foldl (fun gs e => insertGrouped gs (series_key e) e) gs).flatMap (fun g => g.2))
        (gs.flatMap (fun g => g.2) ++ l) := by
    intro l
    induction l with
    | nil => intro gs; simp
    | cons e rest ih =>
        intro gs
        rw [List.foldl_cons]
        refine (ih _).trans ?_
        have h1 := (insertGrouped_flatten gs (series_key e) e).append_right rest
        have h2 : (gs.flatMap (fun g => g.2) ++ [e]) ++ rest
            = gs.flatMap (fun g => g.2) ++ (e :: rest) := by simp
        rw [h2] at h1
        exact h1
  simpa using main evs []

/-- Two well-keyed groups with the same key are the same group. -/
theorem groups_key_unique {gs : List (SeriesKey × List Event)}
    (hnd : (gs.map Prod.fst).Nodup) :
    ∀ g1 ∈ gs, ∀ g2 ∈ gs, g1.1 = g2.1 → g1 = g2 := by
  intro g1 h1 g2 h2 hk
  exact List.inj_on_of_nodup_map hnd h1 h2 hk

/-- Membership in the UID-assigned flat list. -/
theorem mem_finalEvents {gs : List (SeriesKey × List Event)} {e' : Event} :
    e' ∈ finalEvents gs
      ↔ ∃ g ∈ gs, ∃ e ∈ g.2, setUid e (canonicalUid g.1 g.2) = e' := by
  simp [finalEvents, assignGroupUid, List.mem_flatMap, List.mem_map]

/-- Reassigning the UID leaves the series key unchanged. -/
theorem series_key_setUid (e : Event) (u : String) : series_key (setUid e u) = series_key e := rfl

/-- The synthesized identifier is never empty. -/
theorem synthUid_ne_empty (k : SeriesKey) : synthUid k ≠ "" := by
  intro h
  have h2 := congrArg String.length h
  rw [synthUid, String.length_append] at h2
  have h16 : ("@fixed.by.script" : String).length = 16 := rfl
  have h0 : ("" : String).length = 0 := rfl
  omega

/-- The canonical UID of a group is never empty. -/
theorem canonicalUid_ne_empty (k : SeriesKey) (evs : List Event) : canonicalUid k evs ≠ "" := by
  unfold canonicalUid
  cases hu : truthyUid (pickMaster evs).uid with
  | none => exact synthUid_ne_empty k
  | some u =>
      cases hm : (pickMaster evs).uid with
      | none => rw [hm] at hu; simp [truthyUid] at hu
      | some u0 =>
          rw [hm] at hu
          by_cases h0 : u0 = ""
          · simp [truthyUid, h0] at hu
          · simp only [truthyUid, if_neg h0, Option.some.injEq] at hu
            rw [← hu]
            exact h0

/-! ### C3: UID propagation and uniformity -/

/-- C3: every event of every group is assigned the group's canonical UID in
the merged event list; consequently every output event has a non-empty UID,
and two output events with equal `(summary, location, duration)` have equal
UID. -/
theorem C3_uid_propagation :
    ∀ (cals : List Calendar) (m : Calendar), process_calendars cals = some m →
      (∀ g ∈ groupBySeriesKey (allEvents cals), ∀ e ∈ g.2,
          setUid e (canonicalUid g.1 g.2) ∈ finalEvents (groupBySeriesKey (allEvents cals)))
      ∧ (∀ e ∈ m.events, ∃ u, e.uid = some u ∧ u ≠ "")
      ∧ (∀ e1 ∈ m.events, ∀ e2 ∈ m.events,
          series_key e1 = series_key e2 → e1.uid = e2.uid) := by
  intro cals m h
  cases cals with
  | nil => simp [process_calendars] at h
  | cons first rest =>
      simp only [process_calendars, Option.some.injEq] at h
      subst h
      set l := allEvents (first :: rest) with hl
      obtain ⟨hkey, hnd, hne⟩ := groupBy_wf l
      have hsrc : ∀ e ∈ dedupEvents (finalEvents (groupBySeriesKey l)),
          ∃ g ∈ groupBySeriesKey l, ∃ e0 ∈ g.2,
            setUid e0 (canonicalUid g.1 g.2) = e := by
        intro e he
        exact mem_finalEvents.mp (dedupEvents_subset he)
      refine ⟨?_, ?_, ?_⟩
      · intro g hg e he
        exact mem_finalEvents.mpr ⟨g, hg, e, he, rfl⟩
      · intro e he
        obtain ⟨g, hg, e0, he0, heq⟩ := hsrc e he
        refine ⟨canonicalUid g.1 g.2, ?_, canonicalUid_ne_empty g.1 g.2⟩
        rw [← heq]
        rfl
      · intro e1 he1 e2 he2 hkeq
        obtain ⟨g1, hg1, e01, he01, heq1⟩ := hsrc e1 he1
        obtain ⟨g2, hg2, e02, he02, heq2⟩ := hsrc e2 he2
        have hk1 : series_key e1 = g1.1 := by
          rw [← heq1, series_key_setUid]
          exact hkey g1 hg1 e01 he01
        have hk2 : series_key e2 = g2.1 := by
          rw [← heq2, series_key_setUid]
          exact hkey g2 hg2 e02 he02
        have hg12 : g1 = g2 :=
          groups_key_unique hnd g1 hg1 g2 hg2 (by rw [← hk1, ← hk2, hkeq])
        rw [← heq1, ← heq2, hg12]
        rfl

/-- Witness for C3 at a concrete duplicate-bearing calendar. -/
theorem C3_uid_propagation_witness :
    (∀ g ∈ groupBySeriesKey (allEvents [exCalDup]), ∀ e ∈ g.2,
        setUid e (canonicalUid g.1 g.2) ∈ finalEvents (groupBySeriesKey (allEvents [exCalDup])))
    ∧ (∀ e ∈ exCalDupOut.events, ∃ u, e.uid = some u ∧ u ≠ "")
    ∧ (∀ e1 ∈ exCalDupOut.events, ∀ e2 ∈ exCalDupOut.events,
        series_key e1 = series_key e2 → e1.uid = e2.uid) :=
  C3_uid_propagation [exCalDup] exCalDupOut (by decide)

/-! ### C2: master selection and the synthesized identifier -/

/-- The synthesized identifier as the claim words it: lower-casing and
underscore-joining the textual forms of `(summary, location, duration)`, then
appending the fixed synthetic-origin suffix. -/
def specSynthUid (k : SeriesKey) : String :=
  pyLower (String.intercalate "_" [k.1, k.2.1, durText k.2.2]) ++ "@fixed.by.script"

/-- Counterexample to C2 as stated: for a concrete masterless-UID group the
program joins the textual forms with hyphens and replaces spaces with
underscores; the underscore-joined identifier the claim describes is a
different string, so the synthesized UID is not built by underscore-joining. -/
theorem C2_counterexample :
    (process_calendars [exCalDup]).map (fun m => m.events.map (fun e => e.uid))
      = some [some (synthUid (series_key exBoth))]
    ∧ synthUid (series_key exBoth) = "team_sync--1:00:00@fixed.by.script"
    ∧ specSynthUid (series_key exBoth) = "team sync__1:00:00@fixed.by.script"
    ∧ specSynthUid (series_key exBoth) ≠ synthUid (series_key exBoth) := by
  refine ⟨by decide, by decide, by decide, by decide⟩

/-- C2 (amended): for every group, the master is the first event carrying
`RRULE`, or the group's first event when none carries `RRULE`; the canonical
UID is the master's truthy UID when it has one, otherwise the synthesized
identifier built by joining the textual forms of `(summary, location,
duration)` with hyphens, replacing spaces with underscores, lower-casing, and
appending the fixed suffix; and in a group whose `RRULE`-bearing events all
coincide with a single event, the master is that event regardless of its
position. -/
theorem C2_master_selection :
    ∀ (cals : List Calendar) (k : SeriesKey) (evs : List Event),
      (k, evs) ∈ groupBySeriesKey (allEvents cals) →
      (evs.find? (fun e => e.rrule) = some (pickMaster evs)
        ∨ ((∀ e ∈ evs, e.rrule = false) ∧ evs.head? = some (pickMaster evs)))
      ∧ canonicalUid k evs
          = (truthyUid (pickMaster evs).uid).getD
              (pyLower (pyReplaceSpace (k.1 ++ "-" ++ k.2.1 ++ "-" ++ durText k.2.2))
                ++ "@fixed.by.script")
      ∧ (∀ e0 ∈ evs, e0.rrule = true → (∀ e ∈ evs, e.rrule = true → e = e0) →
          pickMaster evs = e0) := by
  intro cals k evs hmem
  have hne : evs ≠ [] := (groupBy_wf (allEvents cals)).2.2 (k, evs) hmem
  refine ⟨?_, ?_, ?_⟩
  · cases hf : evs.find? (fun e => e.rrule) with
    | some mm =>
        left
        rw [pickMaster, hf]
        rfl
    | none =>
        right
        constructor
        · intro e he
          have := List.find?_eq_none.mp hf e he
          simpa using this
        · cases evs with
          | nil => exact absurd rfl hne
          | cons a t =>
              rw [pickMaster, hf]
              rfl
  · cases h : truthyUid (pickMaster evs).uid <;> simp [canonicalUid, h, synthUid]
  · intro e0 he0 hr huniq
    cases hf : evs.find? (fun e => e.rrule) with
    | none =>
        exact absurd (by simpa using hr) (List.find?_eq_none.mp hf e0 he0)
    | some mm =>
        have hmm : mm = e0 :=
          huniq mm (List.mem_of_find?_eq_some hf) (by simpa using List.find?_some hf)
        rw [pickMaster, hf]
        exact hmm

/-- An event without `RRULE` carrying a stray UID. -/
def exNoR : Event :=
  { summary := some "Standup"
    location := some "Room A"
    dtstart := some (ICalTime.datetime 0 none)
    dtend := some (ICalTime.datetime 60 none)
    uid := some "stray"
    rrule := false
    recurrenceId := none }

/-- A later `RRULE`-bearing event of the same series. -/
def exRR : Event :=
  { exNoR with uid := some "X"
               rrule := true
               dtstart := some (ICalTime.datetime 1440 none)
               dtend := some (ICalTime.datetime 1500 none) }

/-- A calendar holding the stray-UID event before the `RRULE` master. -/
def exCalRR : Calendar := { props := [], events := [exNoR, exRR] }

/-- Witness for the amended C2: in the concrete group `[exNoR, exRR]` the
master is the `RRULE`-bearing second event and its UID is adopted. -/
theorem C2_master_selection_witness :
    ([exNoR, exRR].find? (fun e => e.rrule) = some (pickMaster [exNoR, exRR])
      ∨ ((∀ e ∈ [exNoR, exRR], e.rrule = false)
          ∧ [exNoR, exRR].head? = some (pickMaster [exNoR, exRR])))
    ∧ canonicalUid ("Standup", "Room A", some 60) [exNoR, exRR]
        = (truthyUid (pickMaster [exNoR, exRR]).uid).getD
            (pyLower (pyReplaceSpace
                ("Standup" ++ "-" ++ "Room A" ++ "-" ++ durText (some 60)))
              ++ "@fixed.by.script")
    ∧ (∀ e0 ∈ [exNoR, exRR], e0.rrule = true →
        (∀ e ∈ [exNoR, exRR], e.rrule = true → e = e0) →
        pickMaster [exNoR, exRR] = e0) :=
  C2_master_selection [exCalRR] ("Standup", "Room A", some 60) [exNoR, exRR] (by decide)

/-! ### C4: iteration order of the deduplication step -/

/-- Keep criterion in terms of the already-iterated elements: the event has a
signature and no earlier iterated event has the same signature. -/
def keepNew (iterated : List Event) (e : Event) : Bool :=
  (eventSignature e).isSome
    && iterated.all (fun p => decide (eventSignature p ≠ eventSignature e))

/-- Reference formulation of the deduplication pass: iterate the list,
keeping an event exactly when it has a signature no earlier element of the
list (kept or not) already produced. -/
def specDedup (evs : List Event) : List Event :=
  (evs.foldl
    (fun (acc : List Event × List Event) e =>
      ((if keepNew acc.2 e then acc.1 ++ [e] else acc.1), acc.2 ++ [e]))
    ([], [])).1

/-- The seen-signature set of the fold coincides with the signatures of the
iterated elements, so the fold equals the reference formulation. -/
theorem dedup_eq_spec_aux :
    ∀ (l : List Event) (out : List Event) (seen : List Sig) (iterated : List Event),
      (∀ s : Sig, s ∈ seen ↔ ∃ e ∈ iterated, eventSignature e = some s) →
      (l.foldl dedupStep (out, seen)).1
        = (l.foldl
            (fun (acc : List Event × List Event) e =>
              ((if keepNew acc.2 e then acc.1 ++ [e] else acc.1), acc.2 ++ [e]))
            (out, iterated)).1 := by
  intro l
  induction l with
  | nil => intro out seen iterated hinv; rfl
  | cons e rest ih =>
      intro out seen iterated hinv
      rw [List.foldl_cons, List.foldl_cons]
      cases hsig : eventSignature e with
      | none =>
          have hstep : dedupStep (out, seen) e = (out, seen) := by
            simp [dedupStep, hsig]
          have hkeep : keepNew iterated e = false := by
            simp [keepNew, hsig]
          rw [hstep, hkeep]
          simp only [if_neg Bool.false_ne_true]
          apply ih
          intro s
          rw [hinv s]
          constructor
          · rintro ⟨e', he', hse'⟩
            exact ⟨e', List.mem_append_left _ he', hse'⟩
          · rintro ⟨e', he', hse'⟩
            rcases List.mem_append.mp he' with h | h
            · exact ⟨e', h, hse'⟩
            · rw [List.mem_singleton.mp h] at hse'
              rw [hsig] at hse'
              exact absurd hse' (by simp)
      | some s =>
          by_cases hs : s ∈ seen
          · have hstep : dedupStep (out, seen) e = (out, seen) := by
              simp [dedupStep, hsig, hs]
            obtain ⟨e', he', hse'⟩ := (hinv s).mp hs
            have hkeep : keepNew iterated e = false := by
              cases hba : iterated.all (fun p => decide (eventSignature p ≠ eventSignature e)) with
              | false => unfold keepNew; rw [hba, Bool.and_false]
              | true =>
                  exfalso
                  have hne := of_decide_eq_true (List.all_eq_true.mp hba e' he')
                  exact hne (hse'.trans hsig.symm)
            rw [hstep, hkeep]
            simp only [if_neg Bool.false_ne_true]
            apply ih
            intro s'
            rw [hinv s']
            constructor
            · rintro ⟨e0, he0, hse0⟩
              exact ⟨e0, List.mem_append_left _ he0, hse0⟩
            · rintro ⟨e0, he0, hse0⟩
              rcases List.mem_append.mp he0 with h | h
              · exact ⟨e0, h, hse0⟩
              · rw [List.mem_singleton.mp h] at hse0
                rw [hsig] at hse0
                injection hse0 with h'
                rw [← h']
                exact ⟨e', he', hse'⟩
          · have hstep : dedupStep (out, seen) e = (out ++ [e], s :: seen) := by
              simp [dedupStep, hsig, hs]
            have hkeep : keepNew iterated e = true := by
              simp only [keepNew, hsig, Option.isSome_some, Bool.true_and]
              rw [List.all_eq_true]
              intro p hp
              rw [decide_eq_true_iff]
              intro hpe
              exact hs ((hinv s).mpr ⟨p, hp, hpe⟩)
            rw [hstep, hkeep]
            simp only [if_pos rfl]
            apply ih
            intro s'
            constructor
            · intro hmem
              rcases List.mem_cons.mp hmem with h | h
              · exact ⟨e, List.mem_append_right _ (List.mem_singleton_self e), by rw [hsig, h]⟩
              · obtain ⟨e0, he0, hse0⟩ := (hinv s').mp h
                exact ⟨e0, List.mem_append_left _ he0, hse0⟩
            · rintro ⟨e0, he0, hse0⟩
              rcases List.mem_append.mp he0 with h | h
              · exact List.mem_cons_of_mem _ ((hinv s').mpr ⟨e0, h, hse0⟩)
              · rw [List.mem_singleton.mp h] at hse0
                rw [hsig] at hse0
                injection hse0 with h'
                rw [h']
                exact List.mem_cons_self _ _

/-- The fold of the source equals the reference formulation. -/
theorem dedupEvents_eq_specDedup (l : List Event) : dedupEvents l = specDedup l := by
  apply dedup_eq_spec_aux
  simp

/-- First event of the order-counterexample: series `("A", "L1", none)` with
UID `X`. -/
def exO1 : Event :=
  { summary := some "A"
    location := some "L1"
    dtstart := some (ICalTime.datetime 10 none)
    dtend := none
    uid := some "X"
    rrule := false
    recurrenceId := none }

/-- Second event in flattening order: a different series `("A", "L2", none)`
that also carries UID `X` and starts at minute 20. -/
def exO2 : Event :=
  { exO1 with location := some "L2"
              dtstart := some (ICalTime.datetime 20 none) }

/-- Third event in flattening order: series `("A", "L1", none)` again, no
UID, also starting at minute 20. -/
def exO3 : Event :=
  { exO1 with uid := none
              dtstart := some (ICalTime.datetime 20 none) }

/-- `exO3` after adoption of its group's canonical UID `X`. -/
def exO3u : Event := { exO3 with uid := some "X" }

/-- A calendar whose flattening order interleaves the two series. -/
def exCalOrd : Calendar := { props := [], events := [exO1, exO2, exO3] }

/-- Counterexample to C4 as stated: the UID-assigned events in original
flattening order are `[exO1, exO2, exO3u]`, and deduplicating in that order
would keep `[exO1, exO2]`; the program iterates `final_events` (grouped
order `[exO1, exO3u, exO2]`) instead and outputs `[exO1, exO3u]`, a
different event list. -/
theorem C4_counterexample :
    allEvents [exCalOrd] = [exO1, exO2, exO3]
    ∧ setUid exO1 (canonicalUid (series_key exO1) [exO1, exO3]) = exO1
    ∧ setUid exO2 (canonicalUid (series_key exO2) [exO2]) = exO2
    ∧ setUid exO3 (canonicalUid (series_key exO3) [exO1, exO3]) = exO3u
    ∧ groupBySeriesKey (allEvents [exCalOrd])
        = [(series_key exO1, [exO1, exO3]), (series_key exO2, [exO2])]
    ∧ dedupEvents [exO1, exO2, exO3u] = [exO1, exO2]
    ∧ (process_calendars [exCalOrd]).map (fun m => m.events) = some [exO1, exO3u]
    ∧ ([exO1, exO3u] : List Event) ≠ [exO1, exO2] := by
  refine ⟨by decide, by decide, by decide, by decide, by decide, by decide, by decide, by decide⟩

/-- C4 (amended): the deduplication step iterates the UID-assigned events in
grouped order (groups in first-appearance order of their series key, events
within a group in original order); every event lacking `DTSTART` is dropped,
and for each signature the first event encountered in that grouped order is
kept while every later event with an already-seen signature is discarded. -/
theorem C4_dedup_grouped_order :
    ∀ (cals : List Calendar) (m : Calendar), process_calendars cals = some m →
      m.events = specDedup (finalEvents (groupBySeriesKey (allEvents cals)))
      ∧ ∀ e ∈ m.events, (eventSignature e).isSome := by
  intro cals m h
  cases cals with
  | nil => simp [process_calendars] at h
  | cons first rest =>
      simp only [process_calendars, Option.some.injEq] at h
      subst h
      exact ⟨dedupEvents_eq_specDedup _, (dedupEvents_distinct _).1⟩

/-- Witness for the amended C4 at the concrete interleaved calendar. -/
theorem C4_dedup_grouped_order_witness :
    ({ props := [], events := [exO1, exO3u] } : Calendar).events
      = specDedup (finalEvents (groupBySeriesKey (allEvents [exCalOrd])))
    ∧ ∀ e ∈ ({ props := [], events := [exO1, exO3u] } : Calendar).events,
        (eventSignature e).isSome :=
  C4_dedup_grouped_order [exCalOrd] { props := [], events := [exO1, exO3u] } (by decide)

/-! ### Infrastructure for idempotence (C7) -/

/-- Deduplication never drops an event when the input signatures are all
present, pairwise distinct, and disjoint from the seen set. -/
theorem dedup_noop (l : List Event) :
    ∀ (out : List Event) (seen : List Sig),
      (∀ e ∈ l, (eventSignature e).isSome) →
      l.Pairwise (fun a b => eventSignature a ≠ eventSignature b) →
      (∀ e ∈ l, ∀ s, eventSignature e = some s → s ∉ seen) →
      (l.foldl dedupStep (out, seen)).1 = out ++ l := by
  induction l with
  | nil => intro out seen _ _ _; simp
  | cons e rest ih =>
      intro out seen hsome hpair hdisj
      obtain ⟨s, hs⟩ := Option.isSome_iff_exists.mp (hsome e (List.mem_cons_self _ _))
      have hnotseen : s ∉ seen := hdisj e (List.mem_cons_self _ _) s hs
      have hstep : dedupStep (out, seen) e = (out ++ [e], s :: seen) := by
        simp [dedupStep, hs, hnotseen]
      rw [List.foldl_cons, hstep]
      have hres := ih (out ++ [e]) (s :: seen)
        (fun e' he' => hsome e' (List.mem_cons_of_mem _ he'))
        (List.Pairwise.of_cons hpair)
        (by
          intro e' he' s' hs' hmem
          rcases List.mem_cons.mp hmem with h | h
          · subst h
            have := (List.pairwise_cons.mp hpair).1 e' he'
            rw [hs, hs'] at this
            exact this rfl
          · exact hdisj e' (List.mem_cons_of_mem _ he') s' hs' h)
      rw [hres, List.append_assoc]
      rfl

/-- Folding the deduplication step over one event block appends some
sub-block of it to the accumulator. -/
theorem dedup_one_block (A : List Event) :
    ∀ (out : List Event) (seen : List Sig),
      ∃ b : List Event,
        (A.foldl dedupStep (out, seen)).1 = out ++ b ∧ ∀ e ∈ b, e ∈ A := by
  induction A with
  | nil => intro out seen; exact ⟨[], by simp, by simp⟩
  | cons e rest ih =>
      intro out seen
      rw [List.foldl_cons]
      cases hsig : eventSignature e with
      | none =>
          have hstep : dedupStep (out, seen) e = (out, seen) := by simp [dedupStep, hsig]
          rw [hstep]
          obtain ⟨b, hb, hbm⟩ := ih out seen
          exact ⟨b, hb, fun e' he' => List.mem_cons_of_mem _ (hbm e' he')⟩
      | some s =>
          by_cases hs : s ∈ seen
          · have hstep : dedupStep (out, seen) e = (out, seen) := by
              simp [dedupStep, hsig, hs]
            rw [hstep]
            obtain ⟨b, hb, hbm⟩ := ih out seen
            exact ⟨b, hb, fun e' he' => List.mem_cons_of_mem _ (hbm e' he')⟩
          · have hstep : dedupStep (out, seen) e = (out ++ [e], s :: seen) := by
              simp [dedupStep, hsig, hs]
            rw [hstep]
            obtain ⟨b, hb, hbm⟩ := ih (out ++ [e]) (s :: seen)
            refine ⟨e :: b, ?_, ?_⟩
            · rw [hb, List.append_assoc]
              rfl
            · intro e' he'
              rcases List.mem_cons.mp he' with h | h
              · rw [h]; exact List.mem_cons_self _ _
              · exact List.mem_cons_of_mem _ (hbm e' h)

/-- Deduplicating the UID-assigned flat list yields, group by group, a
sub-block of each group's assigned events, concatenated in group order. -/
theorem dedup_blocks_groups (G : List (SeriesKey × List Event)) :
    ∀ (out : List Event) (seen : List Sig),
      ∃ ps : List (SeriesKey × List Event),
        ((finalEvents G).foldl dedupStep (out, seen)).1 = out ++ ps.flatMap (fun p => p.2)
        ∧ List.Forall₂ (fun (p : SeriesKey × List Event) (g : SeriesKey × List Event) =>
            p.1 = g.1 ∧ ∀ e ∈ p.2, e ∈ assignGroupUid g.1 g.2) ps G := by
  induction G with
  | nil =>
      intro out seen
      exact ⟨[], by simp [finalEvents], List.Forall₂.nil⟩
  | cons g rest ih =>
      intro out seen
      have hfin : finalEvents (g :: rest) = assignGroupUid g.1 g.2 ++ finalEvents rest := by
        simp [finalEvents]
      rw [hfin, List.foldl_append]
      obtain ⟨b, hb, hbm⟩ := dedup_one_block (assignGroupUid g.1 g.2) out seen
      set st1 := (assignGroupUid g.1 g.2).foldl dedupStep (out, seen) with hst1
      obtain ⟨ps, hps, hpsrel⟩ := ih st1.1 st1.2
      refine ⟨(g.1, b) :: ps, ?_, List.Forall₂.cons ⟨rfl, hbm⟩ hpsrel⟩
      rw [hps, hb, List.flatMap_cons, List.append_assoc]

/-- Overwriting a UID with the value it already holds is the identity. -/
theorem setUid_self {e : Event} {u : String} (h : e.uid = some u) : setUid e u = e := by
  cases e with
  | mk s loc ds de uid r rid =>
      have h' : uid = some u := h
      exact congrArg (fun x => Event.mk s loc ds de x r rid) h'.symm

/-- The selected master belongs to its (non-empty) group. -/
theorem pickMaster_mem {evs : List Event} (h : evs ≠ []) : pickMaster evs ∈ evs := by
  unfold pickMaster
  cases hf : evs.find? (fun e => e.rrule) with
  | some mm => exact List.mem_of_find?_eq_some hf
  | none =>
      cases evs with
      | nil => exact absurd rfl h
      | cons a t => exact List.mem_cons_self _ _

/-- When all events of a non-empty group already carry the same non-empty
UID, that UID is the group's canonical UID. -/
theorem canonicalUid_of_uniform (k : SeriesKey) (evs : List Event) (u : String)
    (hne : evs ≠ []) (hu : ∀ e ∈ evs, e.uid = some u) (hu' : u ≠ "") :
    canonicalUid k evs = u := by
  have hm := hu (pickMaster evs) (pickMaster_mem hne)
  unfold canonicalUid
  rw [hm]
  simp [truthyUid, hu']

/-- When all events of a non-empty group already carry the same non-empty
UID, UID propagation is the identity on the group. -/
theorem assignGroupUid_id (k : SeriesKey) (evs : List Event) (u : String)
    (hne : evs ≠ []) (hu : ∀ e ∈ evs, e.uid = some u) (hu' : u ≠ "") :
    assignGroupUid k evs = evs := by
  unfold assignGroupUid
  rw [canonicalUid_of_uniform k evs u hne hu hu']
  have : ∀ e ∈ evs, setUid e u = e := fun e he => setUid_self (hu e he)
  calc evs.map (fun e => setUid e u) = evs.map id := List.map_congr_left this
    _ = evs := List.map_id evs

/-- Inserting an event with a fresh key appends a new singleton group. -/
theorem insertGrouped_fresh (gs : List (SeriesKey × List Event)) (k : SeriesKey) (e : Event)
    (h : k ∉ gs.map Prod.fst) : insertGrouped gs k e = gs ++ [(k, [e])] := by
  induction gs with
  | nil => rfl
  | cons g rest ih =>
      obtain ⟨k', l⟩ := g
      have hk : k' ≠ k := by
        intro hkk
        exact h (by simp [hkk])
      rw [insertGrouped_cons_ne hk, ih (fun hm => h (List.mem_cons_of_mem _ hm))]
      rfl

/-- Folding uniform-key events into a trailing group accumulates them there. -/
theorem foldl_insert_last (b : List Event) :
    ∀ (gs : List (SeriesKey × List Event)) (k : SeriesKey) (acc : List Event),
      (∀ e ∈ b, series_key e = k) → k ∉ gs.map Prod.fst →
      b.foldl (fun a e => insertGrouped a (series_key e) e) (gs ++ [(k, acc)])
        = gs ++ [(k, acc ++ b)] := by
  induction b with
  | nil => intro gs k acc _ _; simp
  | cons e t ih =>
      intro gs k acc hkeys hfresh
      have hke : series_key e = k := hkeys e (List.mem_cons_self _ _)
      have hstep : insertGrouped (gs ++ [(k, acc)]) (series_key e) e
          = gs ++ [(k, acc ++ [e])] := by
        rw [hke]
        clear ih hkeys
        induction gs with
        | nil => simp [insertGrouped_cons_self]
        | cons g rest ihg =>
            obtain ⟨k', l⟩ := g
            have hk : k' ≠ k := by
              intro hkk
              exact hfresh (by simp [hkk])
            rw [List.cons_append, insertGrouped_cons_ne hk,
              ihg (fun hm => hfresh (List.mem_cons_of_mem _ hm))]
            rfl
      rw [List.foldl_cons, hstep,
        ih gs k (acc ++ [e]) (fun e' he' => hkeys e' (List.mem_cons_of_mem _ he')) hfresh,
        List.append_assoc]
      rfl

/-- Grouping a concatenation of uniform-key blocks with pairwise-fresh keys
appends the non-empty blocks as groups. -/
theorem groupBy_segments (ps : List (SeriesKey × List Event)) :
    ∀ gs : List (SeriesKey × List Event),
      (∀ p ∈ ps, ∀ e ∈ p.2, series_key e = p.1) →
      (gs.map Prod.fst ++ ps.map Prod.fst).Nodup →
      (ps.flatMap (fun p => p.2)).foldl (fun a e => insertGrouped a (series_key e) e) gs
        = gs ++ ps.filter (fun p => !p.2.isEmpty) := by
  induction ps with
  | nil => intro gs _ _; simp
  | cons p rest ih =>
      intro gs hkeys hnd
      obtain ⟨k, b⟩ := p
      rw [List.flatMap_cons, List.foldl_append]
      cases b with
      | nil =>
          simp only [List.foldl_nil, List.filter_cons]
          have hsub : (gs.map Prod.fst ++ rest.map Prod.fst).Nodup := by
            refine List.Nodup.sublist ?_ hnd
            refine List.Sublist.append_left ?_ _
            simp only [List.map_cons]
            exact List.sublist_cons_self _ _
          rw [ih gs (fun p hp => hkeys p (List.mem_cons_of_mem _ hp)) hsub]
          rfl
      | cons e0 b' =>
          have hke0 : series_key e0 = k :=
            hkeys (k, e0 :: b') (List.mem_cons_self _ _) e0 (List.mem_cons_self _ _)
          have hfreshgs : k ∉ gs.map Prod.fst := by
            intro hm
            have : ¬ k ∈ (k, e0 :: b').1 :: rest.map Prod.fst → False := by
              intro hnot
              exact hnot (List.mem_cons_self _ _)
            have hdisj := (List.nodup_append.mp hnd).2.2
            exact hdisj hm (by simp)
          have hstep : (e0 :: b').foldl (fun a e => insertGrouped a (series_key e) e) gs
              = gs ++ [(k, e0 :: b')] := by
            rw [List.foldl_cons, hke0, insertGrouped_fresh gs k e0 hfreshgs]
            have := foldl_insert_last b' gs k [e0]
              (fun e' he' => hkeys (k, e0 :: b') (List.mem_cons_self _ _) e'
                (List.mem_cons_of_mem _ he')) hfreshgs
            rw [this]
            rfl
          rw [hstep]
          have hnd' : ((gs ++ [(k, e0 :: b')]).map Prod.fst ++ rest.map Prod.fst).Nodup := by
            have heq : (gs ++ [(k, e0 :: b')]).map Prod.fst ++ rest.map Prod.fst
                = gs.map Prod.fst ++ ((k, e0 :: b') :: rest).map Prod.fst := by
              rw [List.map_append, List.append_assoc]
              rfl
            rw [heq]
            exact hnd
          rw [ih (gs ++ [(k, e0 :: b')])
            (fun p hp => hkeys p (List.mem_cons_of_mem _ hp)) hnd']
          rw [List.filter_cons]
          simp only [List.isEmpty_cons, Bool.not_false, if_pos]
          rw [List.append_assoc]
          rfl

/-- Left-to-right projection of a pointwise relation between lists. -/
theorem forall₂_mem_left {α β : Type} {R : α → β → Prop} :
    ∀ {l1 : List α} {l2 : List β}, List.Forall₂ R l1 l2 → ∀ a ∈ l1, ∃ b ∈ l2, R a b := by
  intro l1 l2 h
  induction h with
  | nil => intro a ha; exact absurd ha (List.not_mem_nil a)
  | cons hr _ ih =>
      intro a ha
      rcases List.mem_cons.mp ha with h | h
      · subst h
        exact ⟨_, List.mem_cons_self _ _, hr⟩
      · obtain ⟨b, hb, hrb⟩ := ih a h
        exact ⟨b, List.mem_cons_of_mem _ hb, hrb⟩

/-- The block decomposition of the deduplicated list preserves group keys. -/
theorem forall₂_fst_eq :
    ∀ {ps G : List (SeriesKey × List Event)},
      List.Forall₂ (fun (p : SeriesKey × List Event) (g : SeriesKey × List Event) =>
        p.1 = g.1 ∧ ∀ e ∈ p.2, e ∈ assignGroupUid g.1 g.2) ps G →
      ps.map Prod.fst = G.map Prod.fst := by
  intro ps G h
  induction h with
  | nil => rfl
  | cons hr _ ih =>
      rw [List.map_cons, List.map_cons, hr.1, ih]

/-- Events of an assigned group carry the canonical UID and keep their key. -/
theorem mem_assignGroupUid_facts {k : SeriesKey} {evs : List Event} {e' : Event}
    (h : e' ∈ assignGroupUid k evs) (hkeys : ∀ e ∈ evs, series_key e = k) :
    e'.uid = some (canonicalUid k evs) ∧ series_key e' = k := by
  obtain ⟨e0, he0, heq⟩ := List.mem_map.mp h
  subst heq
  exact ⟨rfl, by rw [series_key_setUid]; exact hkeys e0 he0⟩

/-- Empty blocks contribute nothing to the concatenation. -/
theorem flatMap_filter_nonempty (ps : List (SeriesKey × List Event)) :
    (ps.filter (fun p => !p.2.isEmpty)).flatMap (fun p => p.2)
      = ps.flatMap (fun p => p.2) := by
  induction ps with
  | nil => rfl
  | cons p rest ih =>
      rw [List.filter_cons, List.flatMap_cons]
      cases hp : p.2.isEmpty with
      | true =>
          rw [List.isEmpty_iff.mp hp]
          simpa using ih
      | false =>
          simp only [Bool.not_false, if_pos]
          rw [List.flatMap_cons, ih]

/-- Congruence of concatenation-maps on the members of the list. -/
theorem flatMap_congr_mem {α β : Type} {l : List α} {f g : α → List β}
    (h : ∀ a ∈ l, f a = g a) : l.flatMap f = l.flatMap g := by
  induction l with
  | nil => rfl
  | cons a rest ih =>
      rw [List.flatMap_cons, List.flatMap_cons, h a (List.mem_cons_self _ _),
        ih (fun a' ha' => h a' (List.mem_cons_of_mem _ ha'))]

/-- Merging is idempotent at the document level: re-running the merge on its
own output reproduces the output exactly. -/
theorem process_calendars_idem (cals : List Calendar) (m : Calendar)
    (h : process_calendars cals = some m) : process_calendars [m] = some m := by
  cases cals with
  | nil => simp [process_calendars] at h
  | cons first rest =>
      simp only [process_calendars, Option.some.injEq] at h
      subst h
      set l := allEvents (first :: rest) with hldef
      set G := groupBySeriesKey l with hGdef
      set E := dedupEvents (finalEvents G) with hEdef
      set P := headerProps first with hPdef
      obtain ⟨hGkey, hGnd, hGne⟩ := groupBy_wf l
      obtain ⟨ps, hps, hrel⟩ := dedup_blocks_groups G [] []
      have hE : E = ps.flatMap (fun p => p.2) := by
        rw [hEdef]
        unfold dedupEvents
        rw [hps]
        rfl
      have hallm : allEvents [Calendar.mk P E] = E := by
        simp [allEvents]
      have hpskeys : ∀ p ∈ ps, ∀ e ∈ p.2, series_key e = p.1 := by
        intro p hp e he
        obtain ⟨g, hg, hfst, hsub⟩ := forall₂_mem_left hrel p hp
        have := (mem_assignGroupUid_facts (hsub e he)
          (fun e0 he0 => hGkey g hg e0 he0)).2
        rw [this, hfst]
      have hpsnd : (ps.map Prod.fst).Nodup := by
        rw [forall₂_fst_eq hrel]
        exact hGnd
      have hpsuid : ∀ p ∈ ps, ∃ u : String, u ≠ "" ∧ ∀ e ∈ p.2, e.uid = some u := by
        intro p hp
        obtain ⟨g, hg, _, hsub⟩ := forall₂_mem_left hrel p hp
        refine ⟨canonicalUid g.1 g.2, canonicalUid_ne_empty g.1 g.2, ?_⟩
        intro e he
        exact (mem_assignGroupUid_facts (hsub e he)
          (fun e0 he0 => hGkey g hg e0 he0)).1
      have hregroup : groupBySeriesKey E = ps.filter (fun p => !p.2.isEmpty) := by
        rw [hE]
        have := groupBy_segments ps [] hpskeys (by simpa using hpsnd)
        simpa [groupBySeriesKey] using this
      have hassign : finalEvents (ps.filter (fun p => !p.2.isEmpty))
          = (ps.filter (fun p => !p.2.isEmpty)).flatMap (fun p => p.2) := by
        unfold finalEvents
        apply flatMap_congr_mem
        intro p hp
        have hpmem : p ∈ ps := List.mem_of_mem_filter hp
        have hpne : p.2 ≠ [] := by
          have := List.of_mem_filter hp
          intro hnil
          rw [hnil] at this
          simp at this
        obtain ⟨u, hu', hu⟩ := hpsuid p hpmem
        exact assignGroupUid_id p.1 p.2 u hpne hu hu'
      have hfinal : finalEvents (groupBySeriesKey E) = E := by
        rw [hregroup, hassign, flatMap_filter_nonempty, ← hE]
      have hnodup := dedupEvents_distinct (finalEvents G)
      have hdedupE : dedupEvents E = E := by
        unfold dedupEvents
        have := dedup_noop E [] [] (by rw [hEdef]; exact hnodup.1)
          (by rw [hEdef]; exact hnodup.2) (by simp)
        rw [this]
        rfl
      simp only [process_calendars, Option.some.injEq, Calendar.mk.injEq]
      constructor
      · show P.filter _ = P
        rw [hPdef]
        unfold headerProps
        rw [List.filter_filter]
        exact List.filter_congr (fun a _ => Bool.and_self _)
      · show dedupEvents (finalEvents (groupBySeriesKey (allEvents [Calendar.mk P E]))) = E
        rw [hallm, hfinal, hdedupE]

/-! ### C7: byte-level idempotence of the repair -/

/-- C7: for any parse/serialize capability satisfying the spec's round-trip
contract for the external calendar codec, a file whose content is the
serialized output of a previous repair run is repaired to byte-identical
content: the second run removes nothing and changes nothing. -/
theorem C7_repair_idempotent :
    ∀ {β : Type} (parseFile : β → List Calendar) (serialize : Calendar → β),
      (∀ c : Calendar, parseFile (serialize c) = [c]) →
      ∀ (cals : List Calendar) (m : Calendar), process_calendars cals = some m →
        repairBytes parseFile serialize (serialize m) = some (serialize m) := by
  intro β parseFile serialize hrt cals m h
  unfold repairBytes
  rw [hrt m, process_calendars_idem cals m h]
  rfl

/-- Witness for C7 with the identity codec on parsed calendars and the
concrete duplicate-bearing input. -/
theorem C7_repair_idempotent_witness :
    repairBytes (fun b => b) (fun c => [c]) [exCalDupOut] = some [exCalDupOut] :=
  C7_repair_idempotent (fun b => b) (fun c => [c]) (fun _ => rfl)
    [exCalDup] exCalDupOut (by decide)

/-! ### C8: order-insensitivity of the signature set -/

/-- An event of the counterexample: series `("P", "", none)` with UID `X`. -/
def exPX : Event :=
  { summary := some "P"
    location := none
    dtstart := some (ICalTime.datetime 0 none)
    dtend := none
    uid := some "X"
    rrule := false
    recurrenceId := none }

/-- The same series carried by a second block with UID `Y`. -/
def exPY : Event := { exPX with uid := some "Y" }

/-- Calendar block holding `exPX`. -/
def exCalX : Calendar := { props := [], events := [exPX] }

/-- Calendar block holding `exPY`. -/
def exCalY : Calendar := { props := [], events := [exPY] }

/-- Counterexample to C8 as stated: swapping the two blocks swaps which
event becomes the group master, so the adopted UID — and with it the final
set of signatures — changes. -/
theorem C8_counterexample :
    List.Perm [exCalX, exCalY] [exCalY, exCalX]
    ∧ (process_calendars [exCalX, exCalY]).map (fun m => m.events.map eventSignature)
        = some [some (some "X", ICalTime.datetime 0 none)]
    ∧ (process_calendars [exCalY, exCalX]).map (fun m => m.events.map eventSignature)
        = some [some (some "Y", ICalTime.datetime 0 none)]
    ∧ ((some "X", ICalTime.datetime 0 none) : Sig)
        ≠ ((some "Y", ICalTime.datetime 0 none) : Sig) :=
  ⟨List.Perm.swap exCalY exCalX [], by decide, by decide, by decide⟩

/-- The UID every event of a group receives when all events sharing a series
key agree on their truthy UID: its own truthy UID, or the synthesized
identifier of its own key. -/
def assignedUid (e : Event) : String :=
  (truthyUid e.uid).getD (synthUid (series_key e))

/-- The signature an event ends up with after UID assignment. -/
def assignedSig (e : Event) : Option Sig :=
  eventSignature (setUid e (assignedUid e))

/-- Membership in a group implies membership in the grouped list. -/
theorem mem_group_mem_list {l : List Event} {g : SeriesKey × List Event} {e : Event}
    (hg : g ∈ groupBySeriesKey l) (he : e ∈ g.2) : e ∈ l := by
  refine (groupBy_flatten l).mem_iff.mp ?_
  exact List.mem_flatMap.mpr ⟨g, hg, he⟩

/-- Every event of the grouped list lies in some group. -/
theorem mem_list_mem_group {l : List Event} {e : Event} (he : e ∈ l) :
    ∃ g ∈ groupBySeriesKey l, e ∈ g.2 := by
  have := (groupBy_flatten l).mem_iff.mpr he
  exact List.mem_flatMap.mp this

/-- Under UID agreement, the canonical UID of a group is each member's
locally-determined assigned UID. -/
theorem canonicalUid_of_agree {l : List Event}
    (hagree : ∀ e1 ∈ l, ∀ e2 ∈ l, series_key e1 = series_key e2 →
      truthyUid e1.uid = truthyUid e2.uid)
    {g : SeriesKey × List Event} (hg : g ∈ groupBySeriesKey l)
    {e : Event} (he : e ∈ g.2) :
    canonicalUid g.1 g.2 = assignedUid e := by
  obtain ⟨hGkey, _, hGne⟩ := groupBy_wf l
  have hmne : g.2 ≠ [] := hGne g hg
  have hmaster := pickMaster_mem hmne
  have hkm : series_key (pickMaster g.2) = g.1 := hGkey g hg _ hmaster
  have hke : series_key e = g.1 := hGkey g hg e he
  have htu : truthyUid (pickMaster g.2).uid = truthyUid e.uid :=
    hagree (pickMaster g.2) (mem_group_mem_list hg hmaster) e (mem_group_mem_list hg he)
      (hkm.trans hke.symm)
  unfold canonicalUid assignedUid
  rw [htu, hke]
  cases truthyUid e.uid <;> rfl

/-- The signatures reachable from the deduplication fold are those of the
kept prefix and of the remaining input. -/
theorem dedup_sig_iff (l' : List Event) :
    ∀ (out : List Event) (seen : List Sig),
      (∀ s, s ∈ seen → ∃ e ∈ out, eventSignature e = some s) →
      (∀ e ∈ out, ∀ s, eventSignature e = some s → s ∈ seen) →
      ∀ s : Sig,
        (∃ e ∈ (l'.foldl dedupStep (out, seen)).1, eventSignature e = some s)
          ↔ ((∃ e ∈ out, eventSignature e = some s) ∨ ∃ e ∈ l', eventSignature e = some s) := by
  induction l' with
  | nil =>
      intro out seen _ _ s
      simp
  | cons e rest ih =>
      intro out seen hseen hout s
      rw [List.foldl_cons]
      cases hsig : eventSignature e with
      | none =>
          have hstep : dedupStep (out, seen) e = (out, seen) := by simp [dedupStep, hsig]
          rw [hstep, ih out seen hseen hout s]
          constructor
          · rintro (h | h)
            · exact Or.inl h
            · obtain ⟨e', he', hs'⟩ := h
              exact Or.inr ⟨e', List.mem_cons_of_mem _ he', hs'⟩
          · rintro (h | ⟨e', he', hs'⟩)
            · exact Or.inl h
            · rcases List.mem_cons.mp he' with hh | hh
              · rw [hh, hsig] at hs'
                exact absurd hs' (by simp)
              · exact Or.inr ⟨e', hh, hs'⟩
      | some s0 =>
          by_cases hs0 : s0 ∈ seen
          · have hstep : dedupStep (out, seen) e = (out, seen) := by
              simp [dedupStep, hsig, hs0]
            rw [hstep, ih out seen hseen hout s]
            constructor
            · rintro (h | h)
              · exact Or.inl h
              · obtain ⟨e', he', hs'⟩ := h
                exact Or.inr ⟨e', List.mem_cons_of_mem _ he', hs'⟩
            · rintro (h | ⟨e', he', hs'⟩)
              · exact Or.inl h
              · rcases List.mem_cons.mp he' with hh | hh
                · rw [hh, hsig] at hs'
                  injection hs' with hs''
                  rw [hs''] at hs0
                  exact Or.inl (hseen s hs0)
                · exact Or.inr ⟨e', hh, hs'⟩
          · have hstep : dedupStep (out, seen) e = (out ++ [e], s0 :: seen) := by
              simp [dedupStep, hsig, hs0]
            rw [hstep]
            have hseen' : ∀ s', s' ∈ s0 :: seen →
                ∃ e' ∈ out ++ [e], eventSignature e' = some s' := by
              intro s' hs'
              rcases List.mem_cons.mp hs' with hh | hh
              · exact ⟨e, List.mem_append_right _ (List.mem_singleton_self e),
                  by rw [hsig, hh]⟩
              · obtain ⟨e', he', he's⟩ := hseen s' hh
                exact ⟨e', List.mem_append_left _ he', he's⟩
            have hout' : ∀ e' ∈ out ++ [e], ∀ s', eventSignature e' = some s' →
                s' ∈ s0 :: seen := by
              intro e' he' s' hs'
              rcases List.mem_append.mp he' with hh | hh
              · exact List.mem_cons_of_mem _ (hout e' hh s' hs')
              · rw [List.mem_singleton.mp hh, hsig] at hs'
                injection hs' with hs''
                rw [hs'']
                exact List.mem_cons_self _ _
            rw [ih (out ++ [e]) (s0 :: seen) hseen' hout' s]
            constructor
            · rintro (h | h)
              · obtain ⟨e', he', hs'⟩ := h
                rcases List.mem_append.mp he' with hh | hh
                · exact Or.inl ⟨e', hh, hs'⟩
                · rw [List.mem_singleton.mp hh] at hs'
                  exact Or.inr ⟨e, List.mem_cons_self _ _, hs'⟩
              · obtain ⟨e', he', hs'⟩ := h
                exact Or.inr ⟨e', List.mem_cons_of_mem _ he', hs'⟩
            · rintro (h | ⟨e', he', hs'⟩)
              · obtain ⟨e', he', hs'⟩ := h
                exact Or.inl ⟨e', List.mem_append_left _ he', hs'⟩
              · rcases List.mem_cons.mp he' with hh | hh
                · rw [hh] at hs'
                  exact Or.inl ⟨e, List.mem_append_right _ (List.mem_singleton_self e), hs'⟩
                · exact Or.inr ⟨e', hh, hs'⟩

/-- Deduplication preserves the set of signatures. -/
theorem dedupEvents_sig_iff (l : List Event) (s : Sig) :
    (∃ e ∈ dedupEvents l, eventSignature e = some s)
      ↔ ∃ e ∈ l, eventSignature e = some s := by
  have := dedup_sig_iff l [] [] (by simp) (by simp) s
  simpa [dedupEvents] using this

/-- Under UID agreement, the signatures present after UID assignment are the
locally-determined assigned signatures of the flat event list. -/
theorem finalEvents_sig_iff {l : List Event}
    (hagree : ∀ e1 ∈ l, ∀ e2 ∈ l, series_key e1 = series_key e2 →
      truthyUid e1.uid = truthyUid e2.uid) (s : Sig) :
    (∃ e' ∈ finalEvents (groupBySeriesKey l), eventSignature e' = some s)
      ↔ ∃ e ∈ l, assignedSig e = some s := by
  constructor
  · rintro ⟨e', he', hs'⟩
    obtain ⟨g, hg, e0, he0, heq⟩ := mem_finalEvents.mp he'
    refine ⟨e0, mem_group_mem_list hg he0, ?_⟩
    rw [assignedSig, ← canonicalUid_of_agree hagree hg he0, heq]
    exact hs'
  · rintro ⟨e, he, hs'⟩
    obtain ⟨g, hg, heg⟩ := mem_list_mem_group he
    refine ⟨setUid e (canonicalUid g.1 g.2), mem_finalEvents.mpr ⟨g, hg, e, heg, rfl⟩, ?_⟩
    rw [canonicalUid_of_agree hagree hg heg]
    exact hs'

/-- Permuting the block order permutes the flat event list. -/
theorem perm_allEvents {cals1 cals2 : List Calendar} (h : List.Perm cals1 cals2) :
    List.Perm (allEvents cals1) (allEvents cals2) := by
  unfold allEvents
  exact h.flatMap_right (fun c => c.events)

/-- C8 (amended): permuting the order of the parsed calendar blocks yields
the same final set of `EventSignature`s, provided all events sharing a series
key agree on their truthy UID (so that each group's canonical UID does not
depend on which member becomes master); without that proviso the signature
set can change, as the counterexample shows. -/
theorem C8_order_insensitivity :
    ∀ (cals1 cals2 : List Calendar) (m1 m2 : Calendar),
      List.Perm cals1 cals2 →
      (∀ e1 ∈ allEvents cals1, ∀ e2 ∈ allEvents cals1,
        series_key e1 = series_key e2 → truthyUid e1.uid = truthyUid e2.uid) →
      process_calendars cals1 = some m1 →
      process_calendars cals2 = some m2 →
      ∀ s : Sig,
        (∃ e ∈ m1.events, eventSignature e = some s)
          ↔ ∃ e ∈ m2.events, eventSignature e = some s := by
  intro cals1 cals2 m1 m2 hperm hagree h1 h2 s
  have hpermE : List.Perm (allEvents cals1) (allEvents cals2) := perm_allEvents hperm
  have hagree2 : ∀ e1 ∈ allEvents cals2, ∀ e2 ∈ allEvents cals2,
      series_key e1 = series_key e2 → truthyUid e1.uid = truthyUid e2.uid := by
    intro e1 he1 e2 he2 hk
    exact hagree e1 (hpermE.mem_iff.mpr he1) e2 (hpermE.mem_iff.mpr he2) hk
  have hm1 : m1.events
      = dedupEvents (finalEvents (groupBySeriesKey (allEvents cals1))) := by
    cases cals1 with
    | nil => simp [process_calendars] at h1
    | cons first rest =>
        simp only [process_calendars, Option.some.injEq] at h1
        rw [← h1]
  have hm2 : m2.events
      = dedupEvents (finalEvents (groupBySeriesKey (allEvents cals2))) := by
    cases cals2 with
    | nil => simp [process_calendars] at h2
    | cons first rest =>
        simp only [process_calendars, Option.some.injEq] at h2
        rw [← h2]
  rw [hm1, hm2, dedupEvents_sig_iff, dedupEvents_sig_iff,
    finalEvents_sig_iff hagree s, finalEvents_sig_iff hagree2 s]
  constructor
  · rintro ⟨e, he, hs⟩
    exact ⟨e, hpermE.mem_iff.mp he, hs⟩
  · rintro ⟨e, he, hs⟩
    exact ⟨e, hpermE.mem_iff.mpr he, hs⟩

/-- A second block of the `X` series, thirty minutes later. -/
def exPX2 : Event := { exPX with dtstart := some (ICalTime.datetime 30 none) }

/-- Calendar block holding `exPX2`. -/
def exCalX2 : Calendar := { props := [], events := [exPX2] }

/-- Witness for the amended C8: two UID-agreeing blocks given in either order
produce the same signature set. -/
theorem C8_order_insensitivity_witness :
    (∃ e ∈ ({ props := [], events := [exPX, exPX2] } : Calendar).events,
        eventSignature e = some (some "X", ICalTime.datetime 0 none))
      ↔ ∃ e ∈ ({ props := [], events := [exPX2, exPX] } : Calendar).events,
          eventSignature e = some (some "X", ICalTime.datetime 0 none) :=
  C8_order_insensitivity [exCalX, exCalX2] [exCalX2, exCalX]
    { props := [], events := [exPX, exPX2] }
    { props := [], events := [exPX2, exPX] }
    (List.Perm.swap exCalX2 exCalX []) (by decide) (by decide) (by decide)
    (some "X", ICalTime.datetime 0 none)

end IcsRepair
